import Mathlib

/-!
Verification of the batch file-transfer engine and recycle-bin matching
logic of the zouni library, shallowly embedded from the Linux
implementation (src/platform/linux/fs_ext.rs, fs.rs, widgets.rs).
The Windows implementation mirrors the same matching algorithms.

Conventions of the embedding:
* Rust u64 values are Nat; additions that the source performs on u64 are
  reduced modulo 2^64 where the source could wrap.
* Rust i64 values are Int; the `as u64` cast is `u64ofI64`.
* Fallible native calls (gio) are `Except String`; the float-valued,
  display-only `progress: f64` field of `DiskUsages` is omitted.
* Callback-driven and async control flow is modelled by explicit oracles
  (cancellation observations, dialog decisions) and by event traces.
-/

namespace Zouni

/-- Rust `as u64` cast of an i64 value (two's-complement reinterpretation,
i.e. reduction modulo 2^64 of the signed value). -/
def u64ofI64 (x : Int) : Nat := (x % (2 : Int) ^ 64).toNat

/-- Wrapping u64 addition. -/
def add64 (a b : Nat) : Nat := (a + b) % 2 ^ 64

/-- fs_ext.rs `FileOperation`. -/
inductive FileOperation where
  | Copy
  | Move
  | Delete
  | Trash
deriving DecidableEq, Repr

/-- fs_ext.rs `DiskUsages` (the display-only `progress: f64` float field is
omitted from the embedding). -/
structure DiskUsages where
  total_size : Nat
  total_count : Nat
  processed_count : Nat
  processed_size : Nat
deriving DecidableEq, Repr

/-- `DiskUsages::default()`. -/
def initUsages : DiskUsages := ⟨0, 0, 0, 0⟩

/-- fs_ext.rs lines 70-78, the `BatchOpMessage::Progress(proccessed, total)`
arm of the dialog-side consumer: when `proccessed < total` it adds
`(total - proccessed) as u64` to `processed_size`, otherwise it adds
`total as u64`. -/
def processProgressMsg (proccessed total : Int) (u : DiskUsages) : DiskUsages :=
  if proccessed < total then
    { u with processed_size := add64 u.processed_size (u64ofI64 (total - proccessed)) }
  else
    { u with processed_size := add64 u.processed_size (u64ofI64 total) }

/-- Accumulated `processed_size` after a sequence of per-item progress
callbacks `(bytes_transferred, total_bytes)` is consumed. -/
def progressAfter (cbs : List (Int × Int)) (u : DiskUsages) : DiskUsages :=
  cbs.foldl (fun acc pc => processProgressMsg pc.1 pc.2 acc) u

/-- fs_ext.rs lines 79-95, the `BatchOpMessage::Done(result)` arm of the
consumer: an `Err` spawns an error message dialog carrying the message
(second component `some msg`), an `Ok` increments `processed_count`. -/
def handleDone (result : Except String Unit) (u : DiskUsages) : DiskUsages × Option String :=
  match result with
  | Except.error msg => (u, some msg)
  | Except.ok _ => ({ u with processed_count := u.processed_count + 1 }, none)

/-- A `gtk::glib::Error`: whether it matches `IOErrorEnum::Cancelled`, and
its message. -/
structure GlibErr where
  cancelled : Bool
  message : String
deriving DecidableEq, Repr

/-- Observable effects of `run_with_cancellable` (fs_ext.rs lines 220-265)
once the raced operation has finished: the files it deletes, and the
`BatchOpMessage::Done` payload it sends. -/
structure RunEffects where
  deletions : List String
  done_msg : Except String Unit

/-- fs_ext.rs lines 245-264: on success send `Done(Ok(()))`; on error,
if the error matches `IOErrorEnum::Cancelled` delete the (possibly
half-written) destination `cleanup_file`, then (error or not) delete the
`parent_dir` of a move if present, and send `Done(Err(message))` -
note that the `Done(Err(..))` is sent for cancellation errors too. -/
def run_with_cancellable (outcome : Except GlibErr Unit)
    (cleanup_file : Option String) (parent_dir : Option String) : RunEffects :=
  match outcome with
  | Except.ok _ => ⟨[], Except.ok ()⟩
  | Except.error e =>
      let d1 : List String :=
        if e.cancelled then
          match cleanup_file with
          | some f => [f]
          | none => []
        else []
      let d2 : List String :=
        match parent_dir with
        | some p => [p]
        | none => []
      ⟨d1 ++ d2, Except.error e.message⟩

/-- Events of the per-item main loop of `execute_file_operation`
(fs_ext.rs lines 113-131), indexed by item position: the
`BatchOpMessage::Started` notification, and reaching the dispatch to
`execute_copy`/`execute_move`/`execute_delete`/`execute_trash`. -/
inductive MainEvent where
  | started_msg (i : Nat) (name : String)
  | executed (i : Nat) (name : String)
deriving DecidableEq, Repr

/-- The main item loop, driven by the cancellation observations
`canc i` (what `cancellable.is_cancelled()` returns at the check before
item `i`): each iteration sends `Started`, then checks cancellation and
breaks, otherwise dispatches the item's operation. The pause check only
suspends and emits no event. -/
def mainLoopGo (canc : Nat → Bool) : Nat → List String → List MainEvent
  | _, [] => []
  | i, f :: rest =>
      MainEvent.started_msg i f ::
        (if canc i then []
         else MainEvent.executed i f :: mainLoopGo canc (i + 1) rest)

/-- fs_ext.rs lines 113-131 main loop over `froms`. -/
def mainLoop (froms : List String) (canc : Nat → Bool) : List MainEvent :=
  mainLoopGo canc 0 froms

/-- The process-wide cancellation registry `CANCELLABLES`, as the list of
live tokens `(id, cancelled)`. -/
def Registry := List (Nat × Bool)

/-- Whether a live token with this id exists. -/
def contains_id (reg : List (Nat × Bool)) (id : Nat) : Bool :=
  reg.any (fun t => t.1 == id)

/-- Cancelled-state of the token with this id, if present. -/
def token_state : List (Nat × Bool) → Nat → Option Bool
  | [], _ => none
  | (k, c) :: rest, id => if k = id then some c else token_state rest id

/-- fs.rs lines 485-494 `cancel(id)`: look the id up in the registry; if a
token exists, mark it cancelled and return true, otherwise leave the
registry unchanged and return false. (The `try_lock` is modelled as
always succeeding, i.e. sequential access.) -/
def cancel : List (Nat × Bool) → Nat → List (Nat × Bool) × Bool
  | [], _ => ([], false)
  | (k, c) :: rest, id =>
      if k = id then ((k, true) :: rest, true)
      else
        let r := cancel rest id
        ((k, c) :: r.1, r.2)

/-- widgets.rs lines 289-295 `ReplaceOrSkip`. -/
inductive ReplaceOrSkip where
  | Replace
  | ReplaceAll
  | Skip
  | SkipAll
deriving DecidableEq, Repr

/-- gtk `ResponseType` (the dialog response passed to `response_to_enum`);
`other` carries the u16 application-defined code. -/
inductive ResponseKind where
  | nothing
  | reject
  | accept
  | deleteEvent
  | okResp
  | cancelResp
  | close
  | yes
  | no
  | apply
  | help
  | other (value : Nat)
deriving DecidableEq, Repr

/-- widgets.rs lines 297-312 `response_to_enum`: `Other(0..=3)` map to the
four decisions, every other response (including closing the dialog)
maps to `Skip`. -/
def response_to_enum (response : ResponseKind) : ReplaceOrSkip :=
  match response with
  | ResponseKind.other 0 => ReplaceOrSkip.Replace
  | ResponseKind.other 1 => ReplaceOrSkip.ReplaceAll
  | ResponseKind.other 2 => ReplaceOrSkip.Skip
  | ResponseKind.other 3 => ReplaceOrSkip.SkipAll
  | ResponseKind.other _ => ReplaceOrSkip.Skip
  | _ => ReplaceOrSkip.Skip

/-- A source entry as the measurement pass sees it: a leaf whose
`measure_disk_usage` either fails or yields `(disk_usage, num_files)`, or
a directory whose `enumerate_children` either fails or yields children. -/
inductive FsEntry where
  | file (mr : Except String (Nat × Nat))
  | dirOk (children : List FsEntry)
  | dirErr (msg : String)
deriving Repr

/-- fs_ext.rs lines 190-203 `measure_size`: iterate over the entries; for a
directory, enumerate its children (propagating an enumeration error via
the `?` operator) and recurse; for a leaf, measure it (propagating a
measurement error via `?`) and accumulate `disk_usage` into `total_size`
and `num_files` into `total_count`. Every per-entry error aborts the
whole measurement. -/
def measure_size : List FsEntry → DiskUsages → Except String DiskUsages
  | [], u => Except.ok u
  | FsEntry.file (Except.error e) :: _, _ => Except.error e
  | FsEntry.file (Except.ok (sz, n)) :: rest, u =>
      measure_size rest { u with total_size := u.total_size + sz, total_count := u.total_count + n }
  | FsEntry.dirErr e :: _, _ => Except.error e
  | FsEntry.dirOk children :: rest, u =>
      match measure_size children u with
      | Except.error msg => Except.error msg
      | Except.ok u2 => measure_size rest u2

/-- Events of the deferred-conflict resolution loop of
`execute_file_operation` (fs_ext.rs lines 134-173), indexed by the
position of the deferred item in `needs_confirm`: a prompt of the
replace-confirm dialog together with its answer, and a dispatch of
`execute_copy_force`/`execute_move_force`. -/
inductive ConfirmEvent where
  | prompted (i : Nat) (file : String) (r : ReplaceOrSkip)
  | executed_force (i : Nat) (file : String)
deriving DecidableEq, Repr

/-- The deferred-conflict loop: `oracle i` is the decision the dialog
would return for the i-th deferred item, `canc i` the cancellation
observation at its check. Each iteration (when not cancelled) takes the
decision - `Replace` without prompting when `replace_all` is already set,
the dialog's answer otherwise - then: `SkipAll` breaks the loop,
`ReplaceAll` sets `replace_all` (without transferring the current item),
`Replace` dispatches the forced transfer. -/
def confirmGo (oracle : Nat → ReplaceOrSkip) (canc : Nat → Bool) :
    Nat → Bool → List String → List ConfirmEvent
  | _, _, [] => []
  | i, replace_all, f :: rest =>
      if canc i then []
      else
        let r := if replace_all then ReplaceOrSkip.Replace else oracle i
        let prompt : List ConfirmEvent :=
          if replace_all then [] else [ConfirmEvent.prompted i f r]
        if r = ReplaceOrSkip.SkipAll then prompt
        else
          prompt ++
            (if r = ReplaceOrSkip.Replace then [ConfirmEvent.executed_force i f] else []) ++
            confirmGo oracle canc (i + 1) (replace_all || decide (r = ReplaceOrSkip.ReplaceAll)) rest

/-- fs_ext.rs lines 134-173, the whole deferred-conflict pass. -/
def confirmLoop (files : List String) (oracle : Nat → ReplaceOrSkip) (canc : Nat → Bool) :
    List ConfirmEvent :=
  confirmGo oracle canc 0 false files

/-- Observable outcome of one call to `execute_file_operation`: its return
value, whether a cancellation token was registered, whether the progress
dialog was created and shown, the measurement outcome of the spawned
worker (`none` when the worker was never started), and the item events
of the main loop (empty when the measurement `expect` panicked the
worker before any transfer). -/
structure BatchRun where
  result : Except String Unit
  registered_cancellable : Bool
  dialog_shown : Bool
  measurement : Option (Except String DiskUsages)
  main_events : List MainEvent
deriving Repr

/-- fs_ext.rs lines 35-178 `execute_file_operation`, at the granularity of
the claims: an empty `froms` returns `Ok(())` before registering a
token, creating the dialog or measuring anything; otherwise the token is
registered, the dialog shown, and the spawned worker first measures
(the `expect` panics the worker on a measurement error, so no item
starts), then runs the main item loop. Each item of `froms` carries its
display name and its filesystem shape for measurement. -/
def execute_file_operation (operation : FileOperation)
    (froms : List (String × FsEntry)) (dest : Option String)
    (canc : Nat → Bool) : BatchRun :=
  if froms.isEmpty then
    ⟨Except.ok (), false, false, none, []⟩
  else
    match measure_size (froms.map Prod.snd) initUsages with
    | Except.error e => ⟨Except.ok (), true, true, some (Except.error e), []⟩
    | Except.ok u =>
        ⟨Except.ok (), true, true, some (Except.ok u),
          mainLoop (froms.map Prod.fst) canc⟩

/-- One entry of the OS trash listing as the undelete pass reads it:
`trash::orig-path` (empty string when absent), `trash::deletion-date`
converted via `DateTime::to_unix`, and `standard::name` (the
trash-internal file name used to restore). -/
structure TrashEntry where
  origPath : String
  date : Int
  name : String
deriving DecidableEq, Repr

/-- fs.rs `TrashData`: the deletion date and trash-internal name the
matching maps retain per original path. -/
structure TrashData where
  date : Int
  name : String
deriving DecidableEq, Repr

/-- `HashMap::get` on an association list (first binding wins; maps built
by `hmInsertTD` have unique keys). -/
def lookupTD : List (String × TrashData) → String → Option TrashData
  | [], _ => none
  | (k, v) :: rest, p => if k = p then some v else lookupTD rest p

/-- `HashMap::insert` on an association list: replace the first binding of
the key, or append a fresh binding. -/
def hmInsertTD : List (String × TrashData) → String → TrashData → List (String × TrashData)
  | [], k, v => [(k, v)]
  | (k0, v0) :: rest, k, v =>
      if k0 = k then (k0, v) :: rest else (k0, v0) :: hmInsertTD rest k v

/-- `HashMap::get` for the `(original_path -> deleted_time)` request map. -/
def lookupNat : List (String × Nat) → String → Option Nat
  | [], _ => none
  | (k, v) :: rest, p => if k = p then some v else lookupNat rest p

/-- `HashMap::insert` for the request map. -/
def hmInsertNat : List (String × Nat) → String → Nat → List (String × Nat)
  | [], k, v => [(k, v)]
  | (k0, v0) :: rest, k, v =>
      if k0 = k then (k0, v) :: rest else (k0, v0) :: hmInsertNat rest k v

/-- fs.rs lines 550-582, the body of `undelete`'s enumeration loop for one
trash entry `info`: if the entry's original path is among the requested
paths, keep it in the map unless an already-kept entry for the same path
has a strictly greater deletion date. -/
def undeleteStep (file_paths : List String) (m : List (String × TrashData))
    (info : TrashEntry) : List (String × TrashData) :=
  if file_paths.contains info.origPath then
    match lookupTD m info.origPath with
    | some trash_data =>
        if trash_data.date < info.date then
          hmInsertTD m info.origPath ⟨info.date, info.name⟩
        else m
    | none => hmInsertTD m info.origPath ⟨info.date, info.name⟩
  else m

/-- fs.rs lines 544-595 `undelete`: enumerate the trash, group matching
entries by original path keeping the greatest deletion date, then move
each selected entry back to its original path. The returned map is the
set of restored entries, keyed by original path. -/
def undelete (file_paths : List String) (entries : List TrashEntry) :
    List (String × TrashData) :=
  entries.foldl (undeleteStep file_paths) []

/-- fs.rs line 602 / 624: `targets.iter().map(|t| (path, time)).collect()`
into a `HashMap` - later requests for the same path overwrite earlier
ones. -/
def args_of_targets (targets : List (String × Nat)) : List (String × Nat) :=
  targets.foldl (fun m t => hmInsertNat m t.1 t.2) []

/-- fs.rs lines 639-658, the body of `find_items_in_recycle_bin`'s loop
for one trash entry: keep the entry iff the request map binds its
original path to exactly its deletion date (`date as u64`). -/
def findStep (map : List (String × Nat)) (items : List (String × TrashData))
    (info : TrashEntry) : List (String × TrashData) :=
  match lookupNat map info.origPath with
  | some d =>
      if d = u64ofI64 info.date then
        hmInsertTD items info.origPath ⟨info.date, info.name⟩
      else items
  | none => items

/-- fs.rs lines 637-660 `find_items_in_recycle_bin`: keep the exactly
matching trash entries; the kept entries are keyed by original path, so
a later enumerated entry with the same path overwrites an earlier
one. -/
def find_items_in_recycle_bin (entries : List TrashEntry)
    (map : List (String × Nat)) : List (String × TrashData) :=
  entries.foldl (findStep map) []

/-- The max-keeping update `undelete` performs on its running candidate
for one original path when a further matching trash entry is seen. -/
def bumpTD (acc : Option TrashData) (info : TrashEntry) : Option TrashData :=
  match acc with
  | none => some ⟨info.date, info.name⟩
  | some td => if td.date < info.date then some ⟨info.date, info.name⟩ else acc

/-- Specification of `undelete`'s grouping for a single path p: the
candidate after scanning the entries in order keeping the greatest
deletion date (the first seen wins ties), starting from acc. -/
def latestFold (p : String) : List TrashEntry → Option TrashData → Option TrashData
  | [], acc => acc
  | info :: rest, acc =>
      latestFold p rest (if info.origPath = p then bumpTD acc info else acc)

/-- Specification of `find_items_in_recycle_bin` for a single path p: the
last entry with path p whose date agrees exactly with the request map,
after scanning the entries in order, starting from acc. -/
def lastExactFold (p : String) (map : List (String × Nat)) :
    List TrashEntry → Option TrashData → Option TrashData
  | [], acc => acc
  | info :: rest, acc =>
      lastExactFold p map rest
        (if info.origPath = p ∧ lookupNat map p = some (u64ofI64 info.date) then
          some ⟨info.date, info.name⟩
        else acc)

/-- fs.rs lines 598-616 `undelete_by_time`: build the request map, select
the exactly matching entries, move each back (native moves modelled as
succeeding), and return `Ok(())` - unmatched requests are silently
skipped. Result: the call's return value and the set of restored
entries. -/
def undelete_by_time (targets : List (String × Nat)) (entries : List TrashEntry) :
    Except String Unit × List (String × TrashData) :=
  (Except.ok (), find_items_in_recycle_bin entries (args_of_targets targets))

/-- C1: refuted by the code (code bug). For the per-item callback sequence
(5, 10) then (10, 10) of a 10-byte item the consumer grows
`processed_size` by 15 - it adds the remaining bytes `total - proccessed`
for the intermediate callback and the full `total` for the final one -
and not by the item's 10-byte total as delta accumulation would. -/
theorem c1_progress_overcounts :
    (progressAfter [((5 : Int), 10), (10, 10)] initUsages).processed_size = 15 ∧
    (progressAfter [((5 : Int), 10), (10, 10)] initUsages).processed_size ≠ 10 := by
  decide

/-- C7 counterexample: a mid-item cancellation produces
`Done(Err("User cancelled"))` exactly like a failure, and the consumer
surfaces that message as an error notification - refuting the claim that
no error is surfaced to the caller for the cancelled item. -/
theorem c7_counterexample :
    (run_with_cancellable (Except.error ⟨true, "User cancelled"⟩) (some ("/b/x.txt")) none).done_msg
        = Except.error ("User cancelled") ∧
    (handleDone (Except.error ("User cancelled")) initUsages).2 = some ("User cancelled") ∧
    (handleDone (Except.error ("User cancelled")) initUsages).2 ≠ none := by
  refine ⟨rfl, rfl, by simp [handleDone]⟩

/-- C7 amended: a cancellation observed mid-item is reported through the
same `Done(Err)` path as a non-cancellation item error - the consumer
shows an error notification carrying the message either way - while the
partial destination file is additionally removed for the cancelled
item. -/
theorem c7_cancel_like_failure (e : GlibErr) (cf pd : Option String) (u : DiskUsages) :
    (run_with_cancellable (Except.error e) cf pd).done_msg = Except.error e.message ∧
    (handleDone (Except.error e.message) u).2 = some e.message ∧
    (e.cancelled = true → ∀ f, cf = some f →
      f ∈ (run_with_cancellable (Except.error e) cf pd).deletions) := by
  refine ⟨rfl, rfl, ?_⟩
  intro hc f hf
  subst hf
  simp [run_with_cancellable, hc]

/-- C7 witness: the amended statement at a concrete cancelled copy. -/
theorem c7_cancel_like_failure_witness :
    (run_with_cancellable (Except.error ⟨true, "cancelled"⟩) (some ("/d/y")) none).done_msg
        = Except.error (GlibErr.mk true ("cancelled")).message ∧
    (handleDone (Except.error (GlibErr.mk true ("cancelled")).message) initUsages).2
        = some (GlibErr.mk true ("cancelled")).message ∧
    ((GlibErr.mk true ("cancelled")).cancelled = true → ∀ f, (some ("/d/y") : Option String) = some f →
      f ∈ (run_with_cancellable (Except.error ⟨true, "cancelled"⟩) (some ("/d/y")) none).deletions) :=
  c7_cancel_like_failure ⟨true, "cancelled"⟩ (some ("/d/y")) none initUsages

/-- C8: `cancel(id)` returns true exactly when a live token with that id
exists, marks that token cancelled, is a pure no-op returning false for
an unknown id, and calling it again with the same id is idempotent and
never errors. -/
theorem c8_cancel_spec (reg : List (Nat × Bool)) (id : Nat) :
    ((cancel reg id).2 = true ↔ contains_id reg id = true) ∧
    (contains_id reg id = true → token_state (cancel reg id).1 id = some true) ∧
    (contains_id reg id = false → cancel reg id = (reg, false)) ∧
    cancel (cancel reg id).1 id = ((cancel reg id).1, (cancel reg id).2) := by
  induction reg with
  | nil => simp [cancel, contains_id]
  | cons hd tl ih =>
    obtain ⟨k, c⟩ := hd
    obtain ⟨ih1, ih2, ih3, ih4⟩ := ih
    by_cases hk : k = id
    · subst hk
      simp [cancel, contains_id, token_state]
    · have hbeq : (k == id) = false := by simp [hk]
      refine ⟨?_, ?_, ?_, ?_⟩
      · simpa [cancel, contains_id, hk, hbeq] using ih1
      · intro hcont
        have : contains_id tl id = true := by
          simpa [contains_id, hbeq] using hcont
        simpa [cancel, token_state, hk] using ih2 this
      · intro hcont
        have : contains_id tl id = false := by
          simpa [contains_id, hbeq] using hcont
        have h3 := ih3 this
        simp [cancel, hk, h3]
      · simp [cancel, hk, ih4]

/-- C8 witness at the one-token registry holding id 0. -/
theorem c8_cancel_spec_witness :
    ((cancel [(0, false)] 0).2 = true ↔ contains_id [(0, false)] 0 = true) ∧
    (contains_id [(0, false)] 0 = true → token_state (cancel [(0, false)] 0).1 0 = some true) ∧
    (contains_id [(0, false)] 0 = false → cancel [(0, false)] 0 = ([(0, false)], false)) ∧
    cancel (cancel [(0, false)] 0).1 0 = ((cancel [(0, false)] 0).1, (cancel [(0, false)] 0).2) :=
  c8_cancel_spec [(0, false)] 0

/-- C9: for every operation kind, an empty sources list returns `Ok(())`
immediately: no cancellation token is registered, no measurement runs, no
progress dialog is created, and no item event occurs. -/
theorem c9_empty_sources_noop (operation : FileOperation) (dest : Option String)
    (canc : Nat → Bool) :
    execute_file_operation operation [] dest canc
      = ⟨Except.ok (), false, false, none, []⟩ := rfl

/-- C10: the conflict decision type has exactly the four values Replace,
ReplaceAll, Skip, SkipAll (no Abort); `Other(0..=3)` map to them, and
every other dialog response - including closing the dialog - maps to
Skip. -/
theorem c10_decision_set :
    (∀ d : ReplaceOrSkip,
        d = ReplaceOrSkip.Replace ∨ d = ReplaceOrSkip.ReplaceAll ∨
        d = ReplaceOrSkip.Skip ∨ d = ReplaceOrSkip.SkipAll) ∧
    response_to_enum (ResponseKind.other 0) = ReplaceOrSkip.Replace ∧
    response_to_enum (ResponseKind.other 1) = ReplaceOrSkip.ReplaceAll ∧
    response_to_enum (ResponseKind.other 2) = ReplaceOrSkip.Skip ∧
    response_to_enum (ResponseKind.other 3) = ReplaceOrSkip.SkipAll ∧
    response_to_enum ResponseKind.deleteEvent = ReplaceOrSkip.Skip ∧
    response_to_enum ResponseKind.cancelResp = ReplaceOrSkip.Skip ∧
    (∀ r : ResponseKind, (∀ v : Nat, v < 4 → r ≠ ResponseKind.other v) →
        response_to_enum r = ReplaceOrSkip.Skip) := by
  refine ⟨?_, rfl, rfl, rfl, rfl, rfl, rfl, ?_⟩
  · intro d
    cases d <;> simp
  · intro r h
    cases r <;> try rfl
    case other v =>
      rcases v with _ | _ | _ | _ | v
      · exact absurd rfl (h 0 (by omega))
      · exact absurd rfl (h 1 (by omega))
      · exact absurd rfl (h 2 (by omega))
      · exact absurd rfl (h 3 (by omega))
      · rfl

/-- Composing measurements: a successful measurement of a prefix threads
its accumulated usages into the measurement of the rest. -/
theorem measure_size_append (xs : List FsEntry) :
    ∀ (u u2 : DiskUsages) (ys : List FsEntry),
      measure_size xs u = Except.ok u2 →
      measure_size (xs ++ ys) u = measure_size ys u2 := by
  induction xs with
  | nil =>
    intro u u2 ys h
    simp [measure_size] at h
    subst h
    simp
  | cons hd tl ih =>
    intro u u2 ys h
    cases hd with
    | file mr =>
      cases mr with
      | error e => simp [measure_size] at h
      | ok pr =>
        obtain ⟨sz, n⟩ := pr
        simp only [measure_size] at h
        simpa [measure_size] using ih _ _ ys h
    | dirErr e => simp [measure_size] at h
    | dirOk children =>
      simp only [List.cons_append, measure_size] at h ⊢
      cases hme : measure_size children u with
      | error msg =>
        simp only [hme] at h
        simp at h
      | ok u3 =>
        simp only [hme] at h ⊢
        exact ih _ _ ys h

/-- C5 counterexample: one measurable 10-byte file followed by one file
whose measurement fails (it disappeared between enumeration and
measurement) makes the whole measurement fail - it does not produce the
snapshot (10 bytes, 1 item) that zero-contribution tolerance would. -/
theorem c5_counterexample :
    measure_size [FsEntry.file (Except.ok (10, 1)), FsEntry.file (Except.error ("gone"))] initUsages
        = Except.error ("gone") ∧
    measure_size [FsEntry.file (Except.ok (10, 1)), FsEntry.file (Except.error ("gone"))] initUsages
        ≠ Except.ok ⟨10, 1, 0, 0⟩ := by
  have h : measure_size [FsEntry.file (Except.ok (10, 1)), FsEntry.file (Except.error ("gone"))]
      initUsages = Except.error ("gone") := by
    simp [measure_size]
  exact ⟨h, by rw [h]; simp⟩

/-- C5 amended: the measurement pass does not tolerate a file that
disappears between enumeration and measurement - the first per-entry
error fails the whole measurement - and a measurement failure aborts the
batch before any transfer starts (no main-loop event occurs). -/
theorem c5_measure_error_fatal (xs rest : List FsEntry) (u u2 : DiskUsages) (e : String)
    (h : measure_size xs u = Except.ok u2)
    (operation : FileOperation) (froms : List (String × FsEntry)) (dest : Option String)
    (canc : Nat → Bool) (e2 : String)
    (hm : measure_size (froms.map Prod.snd) initUsages = Except.error e2) :
    measure_size (xs ++ FsEntry.file (Except.error e) :: rest) u = Except.error e ∧
    (execute_file_operation operation froms dest canc).measurement = some (Except.error e2) ∧
    (execute_file_operation operation froms dest canc).main_events = [] := by
  have hrun : ∀ hd tlf, froms = hd :: tlf →
      execute_file_operation operation froms dest canc
        = ⟨Except.ok (), true, true, some (Except.error e2), []⟩ := by
    intro hd tlf hf
    subst hf
    simp only [List.map_cons] at hm
    simp [execute_file_operation, hm]
  refine ⟨?_, ?_, ?_⟩
  · rw [measure_size_append xs u u2 _ h]
    simp [measure_size]
  · cases hf : froms with
    | nil => rw [hf] at hm; simp [measure_size] at hm
    | cons hd tlf =>
      have h5 := hrun hd tlf hf
      rw [hf] at h5
      rw [h5]
  · cases hf : froms with
    | nil => rw [hf] at hm; simp [measure_size] at hm
    | cons hd tlf =>
      have h5 := hrun hd tlf hf
      rw [hf] at h5
      rw [h5]

/-- C5 witness: the amended statement at a one-good-one-vanished batch. -/
theorem c5_measure_error_fatal_witness :
    measure_size ([FsEntry.file (Except.ok (10, 1))] ++ FsEntry.file (Except.error ("gone")) :: [])
        initUsages = Except.error ("gone") ∧
    (execute_file_operation FileOperation.Copy [(("a"), FsEntry.file (Except.error ("gone")))]
        (some ("/dst")) (fun _ => false)).measurement = some (Except.error ("gone")) ∧
    (execute_file_operation FileOperation.Copy [(("a"), FsEntry.file (Except.error ("gone")))]
        (some ("/dst")) (fun _ => false)).main_events = [] :=
  c5_measure_error_fatal [FsEntry.file (Except.ok (10, 1))] [] initUsages ⟨10, 1, 0, 0⟩
    ("gone") (by simp [measure_size, initUsages])
    FileOperation.Copy [(("a"), FsEntry.file (Except.error ("gone")))] (some ("/dst"))
    (fun _ => false) ("gone") (by simp [measure_size])

/-- Once a cancellation has been observed at the check before item j,
monotonicity of the observation means no item at position j or later is
dispatched by the main loop. -/
theorem mainLoopGo_no_executed (canc : Nat → Bool)
    (hmono : ∀ a b, a ≤ b → canc a = true → canc b = true)
    (j : Nat) (hj : canc j = true) :
    ∀ (froms : List String) (i k : Nat) (nm : String), j ≤ k →
      MainEvent.executed k nm ∉ mainLoopGo canc i froms := by
  intro froms
  induction froms with
  | nil =>
    intro i k nm hk
    simp [mainLoopGo]
  | cons f rest ih =>
    intro i k nm hk hmem
    simp only [mainLoopGo] at hmem
    rcases List.mem_cons.mp hmem with h1 | h2
    · exact MainEvent.noConfusion h1
    · by_cases hc : canc i = true
      · simp [hc] at h2
      · simp only [hc, if_false, Bool.false_eq_true] at h2
        rcases List.mem_cons.mp h2 with h3 | h4
        · injection h3 with hki hnm
          subst hki
          exact hc (hmono j k hk hj)
        · exact ih (i + 1) k nm hk h4

/-- C4: once cancellation is observed at an inter-item check, no later
item of the batch is dispatched (neither by the main loop nor by the
deferred-conflict loop), and the in-flight item aborted by a
cancellation error has its partially written destination file deleted. -/
theorem c4_cancel_stops_batch (froms : List String) (canc : Nat → Bool)
    (j : Nat) (e : GlibErr) (f : String) (pd : Option String)
    (hmono : ∀ a b, a ≤ b → canc a = true → canc b = true)
    (hj : canc j = true) (hcan : e.cancelled = true) :
    (∀ k nm, j ≤ k → MainEvent.executed k nm ∉ mainLoop froms canc) ∧
    f ∈ (run_with_cancellable (Except.error e) (some f) pd).deletions ∧
    (∀ (files : List String) (oracle : Nat → ReplaceOrSkip),
      confirmGo oracle (fun _ => true) 0 false files = []) := by
  refine ⟨?_, ?_, ?_⟩
  · intro k nm hk
    exact mainLoopGo_no_executed canc hmono j hj froms 0 k nm hk
  · simp [run_with_cancellable, hcan]
  · intro files oracle
    cases files <;> rfl

/-- C4 witness: a 3-item batch whose cancellation is observed at the check
before item 1, with a cancelled in-flight copy to /b/x. -/
theorem c4_cancel_stops_batch_witness :
    (∀ k nm, 1 ≤ k →
      MainEvent.executed k nm ∉ mainLoop [("a"), ("b"), ("c")] (fun i => decide (1 ≤ i))) ∧
    ("/b/x") ∈ (run_with_cancellable (Except.error ⟨true, "User cancelled"⟩)
        (some ("/b/x")) none).deletions ∧
    (∀ (files : List String) (oracle : Nat → ReplaceOrSkip),
      confirmGo oracle (fun _ => true) 0 false files = []) :=
  c4_cancel_stops_batch [("a"), ("b"), ("c")] (fun i => decide (1 ≤ i)) 1
    ⟨true, "User cancelled"⟩ ("/b/x") none
    (by
      intro a b hab ha
      simp only [decide_eq_true_eq] at ha ⊢
      omega)
    (by decide) rfl

/-- Hash-map insert / get interaction on association lists. -/
theorem lookupTD_hmInsertTD (m : List (String × TrashData)) (k : String) (v : TrashData)
    (p : String) :
    lookupTD (hmInsertTD m k v) p = if k = p then some v else lookupTD m p := by
  induction m with
  | nil =>
    by_cases h : k = p <;> simp [hmInsertTD, lookupTD, h]
  | cons hd tl ih =>
    obtain ⟨k0, v0⟩ := hd
    by_cases h0 : k0 = k
    · subst h0
      by_cases h : k0 = p <;> simp [hmInsertTD, lookupTD, h]
    · by_cases h : k0 = p
      · subst h
        have hkp : ¬ k = k0 := fun hh => h0 hh.symm
        simp [hmInsertTD, lookupTD, h0, hkp]
      · simp [hmInsertTD, lookupTD, h0, h, ih]

/-- What one step of `undelete`'s grouping loop does to the candidate of
an arbitrary path p. -/
theorem lookupTD_undeleteStep (fps : List String) (m : List (String × TrashData))
    (info : TrashEntry) (p : String) :
    lookupTD (undeleteStep fps m info) p =
      if info.origPath = p ∧ info.origPath ∈ fps then bumpTD (lookupTD m p) info
      else lookupTD m p := by
  unfold undeleteStep
  by_cases hco : info.origPath ∈ fps
  · by_cases hpp : info.origPath = p
    · subst hpp
      cases hl : lookupTD m info.origPath with
      | none => simp [hl, hco, bumpTD, lookupTD_hmInsertTD]
      | some td =>
        by_cases hlt : td.date < info.date
        · simp [hl, hco, hlt, bumpTD, lookupTD_hmInsertTD]
        · simp [hl, hco, hlt, bumpTD]
    · cases hl : lookupTD m info.origPath with
      | none => simp [hl, hco, hpp, lookupTD_hmInsertTD]
      | some td =>
        by_cases hlt : td.date < info.date
        · simp [hl, hco, hpp, hlt, lookupTD_hmInsertTD]
        · simp [hl, hco, hpp, hlt]
  · by_cases hpp : info.origPath = p
    · subst hpp
      simp [hco]
    · simp [hco, hpp]

/-- The grouping pass of `undelete`, restricted to one path p, computes
exactly the max-keeping fold `latestFold`. -/
theorem lookupTD_undelete_fold (fps : List String) (entries : List TrashEntry) :
    ∀ (m : List (String × TrashData)) (p : String), p ∈ fps →
      lookupTD (entries.foldl (undeleteStep fps) m) p
        = latestFold p entries (lookupTD m p) := by
  induction entries with
  | nil =>
    intro m p _
    simp [latestFold]
  | cons info rest ih =>
    intro m p hp
    simp only [List.foldl_cons, latestFold]
    rw [ih (undeleteStep fps m info) p hp, lookupTD_undeleteStep]
    by_cases hpp : info.origPath = p
    · simp [hpp, hp]
    · simp [hpp]

/-- A candidate produced by `latestFold` is either the starting candidate
or comes from a matching entry. -/
theorem latestFold_attained (p : String) :
    ∀ (entries : List TrashEntry) (acc : Option TrashData) (td : TrashData),
      latestFold p entries acc = some td →
      acc = some td ∨
        ∃ e, e ∈ entries ∧ e.origPath = p ∧ td.date = e.date ∧ td.name = e.name := by
  intro entries
  induction entries with
  | nil =>
    intro acc td h
    simp [latestFold] at h
    exact Or.inl h
  | cons info rest ih =>
    intro acc td h
    simp only [latestFold] at h
    by_cases hpp : info.origPath = p
    · rw [if_pos hpp] at h
      rcases ih (bumpTD acc info) td h with hacc | ⟨e, he, hep, hd, hn⟩
      · cases hacc2 : acc with
        | none =>
          rw [hacc2] at hacc
          simp only [bumpTD] at hacc
          injection hacc with hacc
          exact Or.inr ⟨info, List.mem_cons_self _ _, hpp, by rw [← hacc], by rw [← hacc]⟩
        | some td0 =>
          rw [hacc2] at hacc
          by_cases hlt : td0.date < info.date
          · simp only [bumpTD, if_pos hlt] at hacc
            injection hacc with hacc
            exact Or.inr ⟨info, List.mem_cons_self _ _, hpp, by rw [← hacc], by rw [← hacc]⟩
          · simp only [bumpTD, if_neg hlt] at hacc
            exact Or.inl hacc
      · exact Or.inr ⟨e, List.mem_cons_of_mem _ he, hep, hd, hn⟩
    · rw [if_neg hpp] at h
      rcases ih acc td h with hacc | ⟨e, he, hep, hd, hn⟩
      · exact Or.inl hacc
      · exact Or.inr ⟨e, List.mem_cons_of_mem _ he, hep, hd, hn⟩

/-- A candidate produced by `latestFold` dominates the dates of all
matching entries and of the starting candidate. -/
theorem latestFold_max (p : String) :
    ∀ (entries : List TrashEntry) (acc : Option TrashData) (td : TrashData),
      latestFold p entries acc = some td →
      (∀ e, e ∈ entries → e.origPath = p → e.date ≤ td.date) ∧
      (∀ td0, acc = some td0 → td0.date ≤ td.date) := by
  intro entries
  induction entries with
  | nil =>
    intro acc td h
    simp [latestFold] at h
    subst h
    exact ⟨by simp, fun td0 h0 => by simp at h0; simp [h0]⟩
  | cons info rest ih =>
    intro acc td h
    simp only [latestFold] at h
    by_cases hpp : info.origPath = p
    · rw [if_pos hpp] at h
      obtain ⟨ih1, ih2⟩ := ih (bumpTD acc info) td h
      have hinfo : info.date ≤ td.date := by
        cases hacc : acc with
        | none =>
          have hb : bumpTD acc info = some ⟨info.date, info.name⟩ := by
            rw [hacc]
            simp [bumpTD]
          simpa using ih2 ⟨info.date, info.name⟩ hb
        | some td0 =>
          by_cases hlt : td0.date < info.date
          · have hb : bumpTD acc info = some ⟨info.date, info.name⟩ := by
              rw [hacc]
              simp [bumpTD, hlt]
            simpa using ih2 ⟨info.date, info.name⟩ hb
          · have hb : bumpTD acc info = some td0 := by
              rw [hacc]
              simp [bumpTD, hlt]
            have h1 := ih2 td0 hb
            omega
      refine ⟨?_, ?_⟩
      · intro e he hep
        rcases List.mem_cons.mp he with h1 | h2
        · subst h1
          exact hinfo
        · exact ih1 e h2 hep
      · intro td0 h0
        by_cases hlt : td0.date < info.date
        · exact le_trans (le_of_lt hlt) hinfo
        · refine ih2 td0 ?_
          rw [h0]
          simp [bumpTD, hlt]
    · rw [if_neg hpp] at h
      obtain ⟨ih1, ih2⟩ := ih acc td h
      refine ⟨?_, ih2⟩
      intro e he hep
      rcases List.mem_cons.mp he with h1 | h2
      · subst h1
        exact absurd hep hpp
      · exact ih1 e h2 hep

/-- `latestFold` yields a candidate as soon as the start or some entry
provides one. -/
theorem latestFold_isSome (p : String) :
    ∀ (entries : List TrashEntry) (acc : Option TrashData),
      (acc ≠ none ∨ ∃ e, e ∈ entries ∧ e.origPath = p) →
      latestFold p entries acc ≠ none := by
  intro entries
  induction entries with
  | nil =>
    intro acc h
    rcases h with h | ⟨e, he, _⟩
    · simpa [latestFold] using h
    · simp at he
  | cons info rest ih =>
    intro acc h
    simp only [latestFold]
    by_cases hpp : info.origPath = p
    · rw [if_pos hpp]
      refine ih _ (Or.inl ?_)
      cases hacc : acc with
      | none => simp [bumpTD]
      | some td0 => by_cases hlt : td0.date < info.date <;> simp [bumpTD, hlt]
    · rw [if_neg hpp]
      rcases h with h | ⟨e, he, hep⟩
      · exact ih _ (Or.inl h)
      · rcases List.mem_cons.mp he with h1 | h2
        · subst h1
          exact absurd hep hpp
        · exact ih _ (Or.inr ⟨e, h2, hep⟩)


/-- C2: for each requested path with at least one matching trash entry,
`undelete` selects an actual matching entry whose deletion date is
maximal among the matching entries. -/
theorem c2_undelete_selects_latest (fps : List String) (entries : List TrashEntry)
    (p : String) (hp : p ∈ fps)
    (e0 : TrashEntry) (he0 : e0 ∈ entries) (hep : e0.origPath = p) :
    ∃ td, lookupTD (undelete fps entries) p = some td ∧
      (∃ e, e ∈ entries ∧ e.origPath = p ∧ td.date = e.date ∧ td.name = e.name) ∧
      (∀ e, e ∈ entries → e.origPath = p → e.date ≤ td.date) := by
  have hcomm : lookupTD (undelete fps entries) p = latestFold p entries none := by
    have h := lookupTD_undelete_fold fps entries [] p hp
    simpa [undelete, lookupTD] using h
  have hsome := latestFold_isSome p entries none (Or.inr ⟨e0, he0, hep⟩)
  cases hres : latestFold p entries none with
  | none => exact absurd hres hsome
  | some td =>
    refine ⟨td, by rw [hcomm, hres], ?_, ?_⟩
    · rcases latestFold_attained p entries none td hres with h | h
      · exact absurd h (by simp)
      · exact h
    · exact (latestFold_max p entries none td hres).1

/-- C2 witness: two entries for /a/x.txt deleted at 1 and 2; `undelete`
restores the one deleted at 2. -/
theorem c2_undelete_selects_latest_witness :
    (∃ td, lookupTD (undelete [("/a/x.txt")]
        [⟨"/a/x.txt", 1, "f1"⟩, ⟨"/a/x.txt", 2, "f2"⟩]) ("/a/x.txt") = some td ∧
      (∃ e, e ∈ [(⟨"/a/x.txt", 1, "f1"⟩ : TrashEntry), ⟨"/a/x.txt", 2, "f2"⟩] ∧
        e.origPath = ("/a/x.txt") ∧ td.date = e.date ∧ td.name = e.name) ∧
      (∀ e, e ∈ [(⟨"/a/x.txt", 1, "f1"⟩ : TrashEntry), ⟨"/a/x.txt", 2, "f2"⟩] →
        e.origPath = ("/a/x.txt") → e.date ≤ td.date)) ∧
    lookupTD (undelete [("/a/x.txt")]
        [⟨"/a/x.txt", 1, "f1"⟩, ⟨"/a/x.txt", 2, "f2"⟩]) ("/a/x.txt")
      = some ⟨2, "f2"⟩ :=
  ⟨c2_undelete_selects_latest [("/a/x.txt")]
      [⟨"/a/x.txt", 1, "f1"⟩, ⟨"/a/x.txt", 2, "f2"⟩] ("/a/x.txt") (by decide)
      ⟨"/a/x.txt", 1, "f1"⟩ (by simp) rfl,
    by decide⟩

/-- C3 counterexample: with the two requests (/a/x.txt, 1) and
(/a/x.txt, 2) and two matching bin entries, only the entry deleted at 2
is restored - the entry deleted at 1, whose composite key exactly equals
the first request's key, restores nothing, because collecting the
requests into a path-keyed map discards the earlier request. The call
still returns Ok. -/
theorem c3_counterexample :
    (("/a/x.txt", 1) ∈ [(("/a/x.txt"), (1 : Nat)), ("/a/x.txt", 2)]) ∧
    ((⟨"/a/x.txt", 1, "n1"⟩ : TrashEntry)
        ∈ [(⟨"/a/x.txt", 1, "n1"⟩ : TrashEntry), ⟨"/a/x.txt", 2, "n2"⟩]) ∧
    u64ofI64 1 = 1 ∧
    (undelete_by_time [("/a/x.txt", 1), ("/a/x.txt", 2)]
        [⟨"/a/x.txt", 1, "n1"⟩, ⟨"/a/x.txt", 2, "n2"⟩]).2
      = [("/a/x.txt", ⟨2, "n2"⟩)] ∧
    ((undelete_by_time [("/a/x.txt", 1), ("/a/x.txt", 2)]
        [⟨"/a/x.txt", 1, "n1"⟩, ⟨"/a/x.txt", 2, "n2"⟩]).2.all
      (fun it => it.2.date != 1)) = true ∧
    (undelete_by_time [("/a/x.txt", 1), ("/a/x.txt", 2)]
        [⟨"/a/x.txt", 1, "n1"⟩, ⟨"/a/x.txt", 2, "n2"⟩]).1 = Except.ok () := by
  refine ⟨by decide, by decide, by decide, by decide, by decide, rfl⟩

/-- What one step of the exact-match selection does to the candidate of an
arbitrary path p. -/
theorem lookupTD_findStep (map : List (String × Nat)) (items : List (String × TrashData))
    (info : TrashEntry) (p : String) :
    lookupTD (findStep map items info) p =
      if info.origPath = p ∧ lookupNat map p = some (u64ofI64 info.date) then
        some ⟨info.date, info.name⟩
      else lookupTD items p := by
  unfold findStep
  by_cases hpp : info.origPath = p
  · subst hpp
    cases hl : lookupNat map info.origPath with
    | none => simp [hl]
    | some d =>
      by_cases hd : d = u64ofI64 info.date
      · subst hd
        simp [hl, lookupTD_hmInsertTD]
      · simp [hl, hd]
  · cases hl : lookupNat map info.origPath with
    | none => simp [hl, hpp]
    | some d =>
      by_cases hd : d = u64ofI64 info.date
      · simp [hl, hd, hpp, lookupTD_hmInsertTD]
      · simp [hl, hd, hpp]

/-- The selection pass of `find_items_in_recycle_bin`, restricted to one
path p, computes exactly the last-exact-match fold. -/
theorem lookupTD_find_fold (map : List (String × Nat)) (entries : List TrashEntry) :
    ∀ (items : List (String × TrashData)) (p : String),
      lookupTD (entries.foldl (findStep map) items) p
        = lastExactFold p map entries (lookupTD items p) := by
  induction entries with
  | nil =>
    intro items p
    simp [lastExactFold]
  | cons info rest ih =>
    intro items p
    simp only [List.foldl_cons, lastExactFold]
    rw [ih (findStep map items info) p, lookupTD_findStep]

/-- A candidate produced by the last-exact-match fold is either the
starting candidate or comes from an entry that matches the request map
exactly. -/
theorem lastExactFold_attained (p : String) (map : List (String × Nat)) :
    ∀ (entries : List TrashEntry) (acc : Option TrashData) (td : TrashData),
      lastExactFold p map entries acc = some td →
      acc = some td ∨
        ∃ e, e ∈ entries ∧ e.origPath = p ∧ td.date = e.date ∧ td.name = e.name ∧
          lookupNat map p = some (u64ofI64 e.date) := by
  intro entries
  induction entries with
  | nil =>
    intro acc td h
    simp [lastExactFold] at h
    exact Or.inl h
  | cons info rest ih =>
    intro acc td h
    simp only [lastExactFold] at h
    by_cases hc : info.origPath = p ∧ lookupNat map p = some (u64ofI64 info.date)
    · rw [if_pos hc] at h
      rcases ih _ td h with hacc | ⟨e, he, hep, hd, hn, hl⟩
      · injection hacc with hacc
        exact Or.inr ⟨info, List.mem_cons_self _ _, hc.1, by rw [← hacc], by rw [← hacc], hc.2⟩
      · exact Or.inr ⟨e, List.mem_cons_of_mem _ he, hep, hd, hn, hl⟩
    · rw [if_neg hc] at h
      rcases ih _ td h with hacc | ⟨e, he, hep, hd, hn, hl⟩
      · exact Or.inl hacc
      · exact Or.inr ⟨e, List.mem_cons_of_mem _ he, hep, hd, hn, hl⟩

/-- The last-exact-match fold yields a candidate as soon as the start or
some exactly matching entry provides one. -/
theorem lastExactFold_isSome (p : String) (map : List (String × Nat)) :
    ∀ (entries : List TrashEntry) (acc : Option TrashData),
      (acc ≠ none ∨
        ∃ e, e ∈ entries ∧ e.origPath = p ∧ lookupNat map p = some (u64ofI64 e.date)) →
      lastExactFold p map entries acc ≠ none := by
  intro entries
  induction entries with
  | nil =>
    intro acc h
    rcases h with h | ⟨e, he, _, _⟩
    · simpa [lastExactFold] using h
    · simp at he
  | cons info rest ih =>
    intro acc h
    simp only [lastExactFold]
    by_cases hc : info.origPath = p ∧ lookupNat map p = some (u64ofI64 info.date)
    · rw [if_pos hc]
      exact ih _ (Or.inl (by simp))
    · rw [if_neg hc]
      rcases h with h | ⟨e, he, hep, hl⟩
      · exact ih _ (Or.inl h)
      · rcases List.mem_cons.mp he with h1 | h2
        · subst h1
          exact absurd ⟨hep, hl⟩ hc
        · exact ih _ (Or.inr ⟨e, h2, hep, hl⟩)

/-- A path the request map does not bind is never selected. -/
theorem lastExactFold_none (p : String) (map : List (String × Nat))
    (hnone : lookupNat map p = none) :
    ∀ (entries : List TrashEntry) (acc : Option TrashData),
      lastExactFold p map entries acc = acc := by
  intro entries
  induction entries with
  | nil =>
    intro acc
    simp [lastExactFold]
  | cons info rest ih =>
    intro acc
    simp only [lastExactFold]
    have hc : ¬ (info.origPath = p ∧ lookupNat map p = some (u64ofI64 info.date)) := by
      rintro ⟨_, hl⟩
      rw [hnone] at hl
      exact Option.noConfusion hl
    rw [if_neg hc]
    exact ih acc

/-- C3 amended: requests are first collapsed into a path-keyed map, the
last request for a path winning; an entry is restored for path p exactly
when that effective request binds p to the entry's deletion date, the
restored candidate being the last enumerated such entry; a request with
no exact match restores nothing and the call still returns Ok, so the
matched subset is restored even when some requests are unmatched. -/
theorem c3_undelete_by_time_effective (targets : List (String × Nat))
    (entries : List TrashEntry) (p : String) :
    (∀ td, lookupTD (find_items_in_recycle_bin entries (args_of_targets targets)) p = some td →
      lookupNat (args_of_targets targets) p = some (u64ofI64 td.date) ∧
      ∃ e, e ∈ entries ∧ e.origPath = p ∧ td.date = e.date ∧ td.name = e.name) ∧
    (∀ d, lookupNat (args_of_targets targets) p = some d →
      (∃ e, e ∈ entries ∧ e.origPath = p ∧ u64ofI64 e.date = d) →
      ∃ td, lookupTD (find_items_in_recycle_bin entries (args_of_targets targets)) p = some td ∧
        u64ofI64 td.date = d) ∧
    (lookupNat (args_of_targets targets) p = none →
      lookupTD (find_items_in_recycle_bin entries (args_of_targets targets)) p = none) ∧
    (undelete_by_time targets entries).1 = Except.ok () := by
  have hcomm : lookupTD (find_items_in_recycle_bin entries (args_of_targets targets)) p
      = lastExactFold p (args_of_targets targets) entries none := by
    have h := lookupTD_find_fold (args_of_targets targets) entries [] p
    simpa [find_items_in_recycle_bin, lookupTD] using h
  refine ⟨?_, ?_, ?_, rfl⟩
  · intro td htd
    rw [hcomm] at htd
    rcases lastExactFold_attained p _ entries none td htd with h | ⟨e, he, hep, hd, hn, hl⟩
    · exact absurd h (by simp)
    · exact ⟨by rw [hd]; exact hl, e, he, hep, hd, hn⟩
  · intro d hd hex
    obtain ⟨e, he, hep, hu⟩ := hex
    have hl : lookupNat (args_of_targets targets) p = some (u64ofI64 e.date) := by
      rw [hu]
      exact hd
    have hsome := lastExactFold_isSome p (args_of_targets targets) entries none
      (Or.inr ⟨e, he, hep, hl⟩)
    cases hres : lastExactFold p (args_of_targets targets) entries none with
    | none => exact absurd hres hsome
    | some td =>
      refine ⟨td, by rw [hcomm, hres], ?_⟩
      rcases lastExactFold_attained p _ entries none td hres with h | ⟨e2, _, _, hd2, _, hl2⟩
      · exact absurd h (by simp)
      · rw [hd2]
        have := hl2.symm.trans hd
        exact Option.some.inj this
  · intro hn
    rw [hcomm]
    exact lastExactFold_none p _ hn entries none

/-- C3 witness: the amended statement at the duplicate-request scenario of
the counterexample. -/
theorem c3_undelete_by_time_effective_witness :
    (∀ td, lookupTD (find_items_in_recycle_bin
        [(⟨"/a/x.txt", 1, "n1"⟩ : TrashEntry), ⟨"/a/x.txt", 2, "n2"⟩]
        (args_of_targets [("/a/x.txt", 1), ("/a/x.txt", 2)])) ("/a/x.txt") = some td →
      lookupNat (args_of_targets [("/a/x.txt", 1), ("/a/x.txt", 2)]) ("/a/x.txt")
          = some (u64ofI64 td.date) ∧
      ∃ e, e ∈ [(⟨"/a/x.txt", 1, "n1"⟩ : TrashEntry), ⟨"/a/x.txt", 2, "n2"⟩] ∧
        e.origPath = ("/a/x.txt") ∧ td.date = e.date ∧ td.name = e.name) ∧
    (∀ d, lookupNat (args_of_targets [("/a/x.txt", 1), ("/a/x.txt", 2)]) ("/a/x.txt") = some d →
      (∃ e, e ∈ [(⟨"/a/x.txt", 1, "n1"⟩ : TrashEntry), ⟨"/a/x.txt", 2, "n2"⟩] ∧
        e.origPath = ("/a/x.txt") ∧ u64ofI64 e.date = d) →
      ∃ td, lookupTD (find_items_in_recycle_bin
          [(⟨"/a/x.txt", 1, "n1"⟩ : TrashEntry), ⟨"/a/x.txt", 2, "n2"⟩]
          (args_of_targets [("/a/x.txt", 1), ("/a/x.txt", 2)])) ("/a/x.txt") = some td ∧
        u64ofI64 td.date = d) ∧
    (lookupNat (args_of_targets [("/a/x.txt", 1), ("/a/x.txt", 2)]) ("/a/x.txt") = none →
      lookupTD (find_items_in_recycle_bin
          [(⟨"/a/x.txt", 1, "n1"⟩ : TrashEntry), ⟨"/a/x.txt", 2, "n2"⟩]
          (args_of_targets [("/a/x.txt", 1), ("/a/x.txt", 2)])) ("/a/x.txt") = none) ∧
    (undelete_by_time [("/a/x.txt", 1), ("/a/x.txt", 2)]
        [⟨"/a/x.txt", 1, "n1"⟩, ⟨"/a/x.txt", 2, "n2"⟩]).1 = Except.ok () :=
  c3_undelete_by_time_effective [("/a/x.txt", 1), ("/a/x.txt", 2)]
    [⟨"/a/x.txt", 1, "n1"⟩, ⟨"/a/x.txt", 2, "n2"⟩] ("/a/x.txt")

/-- Once `replace_all` is in force the conflict loop never prompts
again. -/
theorem confirmGo_ra_no_prompt (oracle : Nat → ReplaceOrSkip) (canc : Nat → Bool)
    (hcanc : ∀ i, canc i = false) :
    ∀ (files : List String) (i k : Nat) (f : String) (r : ReplaceOrSkip),
      ConfirmEvent.prompted k f r ∉ confirmGo oracle canc i true files := by
  intro files
  induction files with
  | nil =>
    intro i k f r
    simp [confirmGo]
  | cons g rest ih =>
    intro i k f r hmem
    simp only [confirmGo, hcanc i] at hmem
    simp only [Bool.false_eq_true, if_false, if_true, reduceCtorEq, reduceIte,
      List.nil_append, List.cons_append, Bool.true_or] at hmem
    rcases List.mem_cons.mp hmem with h1 | h2
    · exact ConfirmEvent.noConfusion h1
    · exact ih (i + 1) k f r h2

/-- Once `replace_all` is in force the conflict loop force-transfers every
remaining item. -/
theorem confirmGo_ra_executes (oracle : Nat → ReplaceOrSkip) (canc : Nat → Bool)
    (hcanc : ∀ i, canc i = false) :
    ∀ (files : List String) (i k : Nat), k < files.length →
      ConfirmEvent.executed_force (i + k) (files.getD k (""))
        ∈ confirmGo oracle canc i true files := by
  intro files
  induction files with
  | nil =>
    intro i k hk
    simp at hk
  | cons g rest ih =>
    intro i k hk
    simp only [confirmGo, hcanc i]
    simp only [Bool.false_eq_true, if_false, if_true, reduceCtorEq, reduceIte,
      List.nil_append, List.cons_append, Bool.true_or]
    cases k with
    | zero =>
      simp
    | succ k2 =>
      have h2 := ih (i + 1) k2 (by simpa using hk)
      refine List.mem_cons_of_mem _ ?_
      have harith : i + 1 + k2 = i + (k2 + 1) := by omega
      rw [harith] at h2
      simpa using h2

/-- Behaviour of the conflict loop from start index i up to the first
prompt j answered with one of the batch-wide decisions: after a
`ReplaceAll` at j no later item is prompted and every later item is
force-transferred; after a `SkipAll` at j no later item is prompted or
transferred. -/
theorem confirmGo_first_all (oracle : Nat → ReplaceOrSkip) (canc : Nat → Bool)
    (hcanc : ∀ i, canc i = false) (j : Nat) :
    ∀ (files : List String) (i : Nat), i ≤ j →
      (∀ m, i ≤ m → m < j →
        oracle m ≠ ReplaceOrSkip.ReplaceAll ∧ oracle m ≠ ReplaceOrSkip.SkipAll) →
      (oracle j = ReplaceOrSkip.ReplaceAll →
        (∀ k f r, j < k → ConfirmEvent.prompted k f r ∉ confirmGo oracle canc i false files) ∧
        (∀ k, j < k → k < i + files.length →
          ConfirmEvent.executed_force k (files.getD (k - i) (""))
            ∈ confirmGo oracle canc i false files)) ∧
      (oracle j = ReplaceOrSkip.SkipAll →
        (∀ k f r, j < k → ConfirmEvent.prompted k f r ∉ confirmGo oracle canc i false files) ∧
        (∀ k f, j < k → ConfirmEvent.executed_force k f ∉ confirmGo oracle canc i false files)) := by
  intro files
  induction files with
  | nil =>
    intro i hij hfirst
    refine ⟨fun _ => ⟨fun k f r _ => by simp [confirmGo], fun k hk1 hk2 => ?_⟩,
      fun _ => ⟨fun k f r _ => by simp [confirmGo], fun k f _ => by simp [confirmGo]⟩⟩
    simp at hk2
    omega
  | cons g rest ih =>
    intro i hij hfirst
    rcases Nat.lt_or_ge i j with hlt | hge
    · have hm := hfirst i (Nat.le_refl i) hlt
      have ihr := ih (i + 1) hlt (fun m hm1 hm2 => hfirst m (by omega) hm2)
      cases horacle : oracle i with
      | ReplaceAll => exact absurd horacle hm.1
      | SkipAll => exact absurd horacle hm.2
      | Replace =>
        constructor
        · intro hRA
          obtain ⟨ihp, ihe⟩ := ihr.1 hRA
          constructor
          · intro k f r hk hmem
            simp only [confirmGo, hcanc i, horacle] at hmem
            simp only [Bool.false_eq_true, if_false, if_true, reduceCtorEq, reduceIte,
              List.nil_append, List.cons_append, List.singleton_append, Bool.false_or,
              decide_False, Bool.or_false] at hmem
            rcases List.mem_cons.mp hmem with h1 | h2
            · injection h1 with h1i
              omega
            · rcases List.mem_cons.mp h2 with h3 | h4
              · exact ConfirmEvent.noConfusion h3
              · exact ihp k f r hk h4
          · intro k hk1 hk2
            simp only [confirmGo, hcanc i, horacle]
            simp only [Bool.false_eq_true, if_false, if_true, reduceCtorEq, reduceIte,
              List.nil_append, List.cons_append, List.singleton_append, Bool.false_or,
              decide_False, Bool.or_false]
            refine List.mem_cons_of_mem _ (List.mem_cons_of_mem _ ?_)
            have h5 := ihe k hk1 (by simp at hk2 ⊢; omega)
            have harith : k - i = (k - (i + 1)) + 1 := by omega
            rw [harith]
            simpa using h5
        · intro hSA
          obtain ⟨ihp, ihe⟩ := ihr.2 hSA
          constructor
          · intro k f r hk hmem
            simp only [confirmGo, hcanc i, horacle] at hmem
            simp only [Bool.false_eq_true, if_false, if_true, reduceCtorEq, reduceIte,
              List.nil_append, List.cons_append, List.singleton_append, Bool.false_or,
              decide_False, Bool.or_false] at hmem
            rcases List.mem_cons.mp hmem with h1 | h2
            · injection h1 with h1i
              omega
            · rcases List.mem_cons.mp h2 with h3 | h4
              · exact ConfirmEvent.noConfusion h3
              · exact ihp k f r hk h4
          · intro k f hk hmem
            simp only [confirmGo, hcanc i, horacle] at hmem
            simp only [Bool.false_eq_true, if_false, if_true, reduceCtorEq, reduceIte,
              List.nil_append, List.cons_append, List.singleton_append, Bool.false_or,
              decide_False, Bool.or_false] at hmem
            rcases List.mem_cons.mp hmem with h1 | h2
            · exact ConfirmEvent.noConfusion h1
            · rcases List.mem_cons.mp h2 with h3 | h4
              · injection h3 with h3i
                omega
              · exact ihe k f hk h4
      | Skip =>
        constructor
        · intro hRA
          obtain ⟨ihp, ihe⟩ := ihr.1 hRA
          constructor
          · intro k f r hk hmem
            simp only [confirmGo, hcanc i, horacle] at hmem
            simp only [Bool.false_eq_true, if_false, if_true, reduceCtorEq, reduceIte,
              List.nil_append, List.cons_append, List.singleton_append, Bool.false_or,
              decide_False, Bool.or_false] at hmem
            rcases List.mem_cons.mp hmem with h1 | h2
            · injection h1 with h1i
              omega
            · exact ihp k f r hk h2
          · intro k hk1 hk2
            simp only [confirmGo, hcanc i, horacle]
            simp only [Bool.false_eq_true, if_false, if_true, reduceCtorEq, reduceIte,
              List.nil_append, List.cons_append, List.singleton_append, Bool.false_or,
              decide_False, Bool.or_false]
            refine List.mem_cons_of_mem _ ?_
            have h5 := ihe k hk1 (by simp at hk2 ⊢; omega)
            have harith : k - i = (k - (i + 1)) + 1 := by omega
            rw [harith]
            simpa using h5
        · intro hSA
          obtain ⟨ihp, ihe⟩ := ihr.2 hSA
          constructor
          · intro k f r hk hmem
            simp only [confirmGo, hcanc i, horacle] at hmem
            simp only [Bool.false_eq_true, if_false, if_true, reduceCtorEq, reduceIte,
              List.nil_append, List.cons_append, List.singleton_append, Bool.false_or,
              decide_False, Bool.or_false] at hmem
            rcases List.mem_cons.mp hmem with h1 | h2
            · injection h1 with h1i
              omega
            · exact ihp k f r hk h2
          · intro k f hk hmem
            simp only [confirmGo, hcanc i, horacle] at hmem
            simp only [Bool.false_eq_true, if_false, if_true, reduceCtorEq, reduceIte,
              List.nil_append, List.cons_append, List.singleton_append, Bool.false_or,
              decide_False, Bool.or_false] at hmem
            rcases List.mem_cons.mp hmem with h1 | h2
            · exact ConfirmEvent.noConfusion h1
            · exact ihe k f hk h2
    · have hii : i = j := by omega
      subst hii
      constructor
      · intro hRA
        constructor
        · intro k f r hk hmem
          simp only [confirmGo, hcanc i, hRA] at hmem
          simp only [Bool.false_eq_true, if_false, if_true, reduceCtorEq, reduceIte,
            List.nil_append, List.cons_append, List.singleton_append, Bool.false_or,
            decide_True, Bool.or_true] at hmem
          rcases List.mem_cons.mp hmem with h1 | h2
          · injection h1 with h1i
            omega
          · exact confirmGo_ra_no_prompt oracle canc hcanc rest (i + 1) k f r h2
        · intro k hk1 hk2
          simp only [confirmGo, hcanc i, hRA]
          simp only [Bool.false_eq_true, if_false, if_true, reduceCtorEq, reduceIte,
            List.nil_append, List.cons_append, List.singleton_append, Bool.false_or,
            decide_True, Bool.or_true]
          refine List.mem_cons_of_mem _ ?_
          have h5 := confirmGo_ra_executes oracle canc hcanc rest (i + 1) (k - (i + 1))
            (by simp at hk2 ⊢; omega)
          have harith : i + 1 + (k - (i + 1)) = k := by omega
          rw [harith] at h5
          have harith2 : k - i = (k - (i + 1)) + 1 := by omega
          rw [harith2]
          simpa using h5
      · intro hSA
        constructor
        · intro k f r hk hmem
          simp only [confirmGo, hcanc i, hSA] at hmem
          simp only [Bool.false_eq_true, if_false, if_true, reduceCtorEq, reduceIte] at hmem
          rcases List.mem_cons.mp hmem with h1 | h2
          · injection h1 with h1i
            omega
          · simp at h2
        · intro k f hk hmem
          simp only [confirmGo, hcanc i, hSA] at hmem
          simp only [Bool.false_eq_true, if_false, if_true, reduceCtorEq, reduceIte] at hmem
          rcases List.mem_cons.mp hmem with h1 | h2
          · exact ConfirmEvent.noConfusion h1
          · simp at h2

/-- C6: with no cancellation, once the first batch-wide decision is taken
at prompt j, the resolver prompts no further; after `ReplaceAll` every
remaining deferred item is force-transferred automatically, and after
`SkipAll` every remaining deferred item is left untouched (skipped). -/
theorem c6_all_shortcuts (files : List String) (oracle : Nat → ReplaceOrSkip)
    (canc : Nat → Bool) (j : Nat)
    (hcanc : ∀ i, canc i = false)
    (hfirst : ∀ m, m < j →
      oracle m ≠ ReplaceOrSkip.ReplaceAll ∧ oracle m ≠ ReplaceOrSkip.SkipAll) :
    (oracle j = ReplaceOrSkip.ReplaceAll →
      (∀ k f r, j < k → ConfirmEvent.prompted k f r ∉ confirmLoop files oracle canc) ∧
      (∀ k, j < k → k < files.length →
        ConfirmEvent.executed_force k (files.getD k ("")) ∈ confirmLoop files oracle canc)) ∧
    (oracle j = ReplaceOrSkip.SkipAll →
      (∀ k f r, j < k → ConfirmEvent.prompted k f r ∉ confirmLoop files oracle canc) ∧
      (∀ k f, j < k → ConfirmEvent.executed_force k f ∉ confirmLoop files oracle canc)) := by
  have h := confirmGo_first_all oracle canc hcanc j files 0 (Nat.zero_le j)
    (fun m _ hm => hfirst m hm)
  simpa [confirmLoop, Nat.sub_zero] using h

/-- C6 witness: three deferred conflicts, `ReplaceAll` chosen at the first
prompt: no further prompt occurs and items 1 and 2 are force-replaced. -/
theorem c6_all_shortcuts_witness :
    ((if (0 : Nat) = 0 then ReplaceOrSkip.ReplaceAll else ReplaceOrSkip.Skip)
        = ReplaceOrSkip.ReplaceAll →
      (∀ k f r, 0 < k → ConfirmEvent.prompted k f r ∉ confirmLoop [("a"), ("b"), ("c")]
        (fun i => if i = 0 then ReplaceOrSkip.ReplaceAll else ReplaceOrSkip.Skip)
        (fun _ => false)) ∧
      (∀ k, 0 < k → k < ([("a"), ("b"), ("c")] : List String).length →
        ConfirmEvent.executed_force k (([("a"), ("b"), ("c")] : List String).getD k (""))
          ∈ confirmLoop [("a"), ("b"), ("c")]
            (fun i => if i = 0 then ReplaceOrSkip.ReplaceAll else ReplaceOrSkip.Skip)
            (fun _ => false))) ∧
    ((if (0 : Nat) = 0 then ReplaceOrSkip.ReplaceAll else ReplaceOrSkip.Skip)
        = ReplaceOrSkip.SkipAll →
      (∀ k f r, 0 < k → ConfirmEvent.prompted k f r ∉ confirmLoop [("a"), ("b"), ("c")]
        (fun i => if i = 0 then ReplaceOrSkip.ReplaceAll else ReplaceOrSkip.Skip)
        (fun _ => false)) ∧
      (∀ k f, 0 < k → ConfirmEvent.executed_force k f ∉ confirmLoop [("a"), ("b"), ("c")]
        (fun i => if i = 0 then ReplaceOrSkip.ReplaceAll else ReplaceOrSkip.Skip)
        (fun _ => false))) :=
  c6_all_shortcuts [("a"), ("b"), ("c")]
    (fun i => if i = 0 then ReplaceOrSkip.ReplaceAll else ReplaceOrSkip.Skip)
    (fun _ => false) 0 (fun _ => rfl) (fun m hm => absurd hm (Nat.not_lt_zero m))

end Zouni
